import Mathlib

/-!
Shallow embedding of the Waters identity based encryption scheme from
src/src/waters.rs, over abstract pairing groups.

The BLS12-381 arithmetic (groups, pairing, compressed codecs), the subtle
crate constant-time option carrier, the SHA3-256 hash and the randomness
source are external collaborators of the crate (they are not part of
src/src/waters.rs); they are modelled from the specification as abstract
structures and parameters, as indicated by the doc comments below.
All definitions of the protocol layer itself are translated directly from
src/src/waters.rs.
-/

namespace Waters

/-- Bytes are modelled as natural numbers. -/
abbrev Byte := Nat

/-- Modelled from the spec: the constant-time option carrier of the subtle
crate, a value paired with a validity flag. -/
structure CtOpt (A : Type) where
  value : A
  isSome : Bool
deriving DecidableEq

/-- Modelled from the spec: constant-time conditional select of the subtle
crate; returns b when the choice flag is set, and a otherwise. -/
def condSel {A : Type} (a b : A) (c : Bool) : A := if c then b else a

/-- Modelled from the spec: CtOption::map of the subtle crate, which applies
f to the selected value (the stored value when the flag is set, the default
otherwise) and keeps the flag. -/
def CtOpt.map {A B : Type} [Inhabited A] (x : CtOpt A) (f : A → B) : CtOpt B :=
  ⟨f (condSel default x.value x.isSome), x.isSome⟩

/-- Modelled from the spec: CtOption::and_then of the subtle crate, which
runs f on the selected value and conjoins the two validity flags. -/
def CtOpt.andThen {A B : Type} [Inhabited A] (x : CtOpt A) (f : A → CtOpt B) : CtOpt B :=
  let tmp := f (condSel default x.value x.isSome)
  ⟨tmp.value, tmp.isSome && x.isSome⟩

/-- The 32-byte identity digest (struct Identity in waters.rs). -/
structure Identity where
  digest : Fin 32 → Byte
deriving DecidableEq

/-- The 256 public parameter points (struct Parameters in waters.rs,
a fixed array of 256 G1 points). -/
structure Parameters (G1 : Type) where
  pts : Fin 256 → G1
deriving DecidableEq

/-- Public key of the PKG (struct PublicKey in waters.rs). -/
structure PublicKey (G1 G2 : Type) where
  g : G2
  g1 : G1
  g2 : G2
  uprime : G1
  u : Parameters G1
deriving DecidableEq

/-- Master secret key of the PKG (struct SecretKey in waters.rs). -/
structure SecretKey (G1 : Type) where
  g1prime : G1
deriving DecidableEq

/-- User secret key (struct UserSecretKey in waters.rs). -/
structure UserSecretKey (G1 G2 : Type) where
  d1 : G1
  d2 : G2
deriving DecidableEq

/-- A message: a single target group element (struct Message in waters.rs). -/
structure Message (Gt : Type) where
  val : Gt
deriving DecidableEq

/-- A ciphertext (struct CipherText in waters.rs). -/
structure CipherText (G1 G2 Gt : Type) where
  c1 : Gt
  c2 : G2
  c3 : G1
deriving DecidableEq

/-- Modelled from the spec: the injected random source. It must provide
uniform draws from G1, G2, Gt and the scalar field; we model it as one
stream per sampled type, all read at a shared cursor position. -/
structure RandSource (G1 G2 Gt S : Type) where
  g1s : Nat → G1
  g2s : Nat → G2
  gts : Nat → Gt
  scalars : Nat → S

/-- Modelled from the spec: the mutable RNG handle, a source plus the
cursor of the next draw; each draw consumes exactly one position. -/
structure Rng (G1 G2 Gt S : Type) where
  src : RandSource G1 G2 Gt S
  pos : Nat

section Scheme

variable {G1 G2 Gt S : Type}

/-- Modelled from the spec: util::rand_g1, one uniform G1 draw. -/
def rand_g1 (r : Rng G1 G2 Gt S) : G1 × Rng G1 G2 Gt S :=
  (r.src.g1s r.pos, ⟨r.src, r.pos + 1⟩)

/-- Modelled from the spec: util::rand_g2, one uniform G2 draw. -/
def rand_g2 (r : Rng G1 G2 Gt S) : G2 × Rng G1 G2 Gt S :=
  (r.src.g2s r.pos, ⟨r.src, r.pos + 1⟩)

/-- Modelled from the spec: util::rand_gt, one uniform Gt draw. -/
def rand_gt (r : Rng G1 G2 Gt S) : Gt × Rng G1 G2 Gt S :=
  (r.src.gts r.pos, ⟨r.src, r.pos + 1⟩)

/-- Modelled from the spec: util::rand_scalar, one uniform scalar draw. -/
def rand_scalar (r : Rng G1 G2 Gt S) : S × Rng G1 G2 Gt S :=
  (r.src.scalars r.pos, ⟨r.src, r.pos + 1⟩)

/-- Embeds the loop in setup filling the 256 parameter points: iteration i
draws rand_g1, so point i comes from stream position pos + i and the cursor
advances by 256. -/
def rand_parameters (r : Rng G1 G2 Gt S) : Parameters G1 × Rng G1 G2 Gt S :=
  (⟨fun i => r.src.g1s (r.pos + i.val)⟩, ⟨r.src, r.pos + 256⟩)

variable [AddCommGroup G1] [AddCommGroup G2] [AddCommGroup Gt]
variable [CommRing S] [Module S G1] [Module S G2] [Module S Gt]

/-- fn setup: draw g from G2, a scalar alpha, set g2 = alpha * g, draw g1
and uprime from G1, draw the 256 parameter points, and return the public
key together with the secret key g1prime = alpha * g1. -/
def setup (rng : Rng G1 G2 Gt S) : (PublicKey G1 G2 × SecretKey G1) × Rng G1 G2 Gt S :=
  let p1 := rand_g2 rng
  let g := p1.1
  let p2 := rand_scalar p1.2
  let alpha := p2.1
  let g2 : G2 := alpha • g
  let p3 := rand_g1 p2.2
  let g1 := p3.1
  let p4 := rand_g1 p3.2
  let uprime := p4.1
  let p5 := rand_parameters p4.2
  ((⟨g, g1, g2, uprime, p5.1⟩, ⟨alpha • g1⟩), p5.2)

/-- Modelled from the spec: util::bits — bit i of the digest, MSB-first
within each byte, byte 0 first: byte index i / 8, bit significance
7 - i % 8. -/
def bitAt (v : Identity) (i : Fin 256) : Bool :=
  Nat.testBit (v.digest ⟨i.val / 8, by have h := i.isLt; omega⟩) (7 - i.val % 8)

/-- fn entangle: fold over the 256 parameter points zipped with the digest
bits, keeping the accumulator through a conditional select:
acc := select(acc, u_i + acc, v_i), starting from uprime. -/
def entangle (pk : PublicKey G1 G2) (v : Identity) : G1 :=
  (List.finRange 256).foldl
    (fun acc i => condSel acc (pk.u.pts i + acc) (bitAt v i)) pk.uprime

/-- fn extract_usk: draw r, return (g1prime + r * entangle(pk, v), r * g). -/
def extract_usk (pk : PublicKey G1 G2) (sk : SecretKey G1) (v : Identity)
    (rng : Rng G1 G2 Gt S) : UserSecretKey G1 G2 × Rng G1 G2 Gt S :=
  let p1 := rand_scalar rng
  let r := p1.1
  let ucoll := entangle pk v
  let d1 := sk.g1prime + r • ucoll
  let d2 := r • pk.g
  (⟨d1, d2⟩, p1.2)

/-- fn encrypt: draw t, return (pairing(g1, g2) * t + m, t * g,
t * entangle(pk, v)).  The pairing is the abstract bilinear map e. -/
def encrypt (e : G1 →ₗ[S] G2 →ₗ[S] Gt) (pk : PublicKey G1 G2) (v : Identity)
    (m : Message Gt) (rng : Rng G1 G2 Gt S) : CipherText G1 G2 Gt × Rng G1 G2 Gt S :=
  let p1 := rand_scalar rng
  let t := p1.1
  let c3coll := entangle pk v
  let c1 := t • (e pk.g1 pk.g2) + m.val
  let c2 := t • pk.g
  let c3 := t • c3coll
  (⟨c1, c2, c3⟩, p1.2)

/-- fn decrypt: c1 + pairing(c3, d2) - pairing(d1, c2). -/
def decrypt (e : G1 →ₗ[S] G2 →ₗ[S] Gt) (usk : UserSecretKey G1 G2)
    (c : CipherText G1 G2 Gt) : Message Gt :=
  ⟨c.c1 + e c.c3 usk.d2 - e usk.d1 c.c2⟩

end Scheme

section Serialization

variable {G1 G2 Gt : Type}

/-- Modelled from the spec: the compressed codecs of the BLS12-381
collaborator — 48-byte G1, 96-byte G2 and 288-byte Gt encodings with
validating (subgroup-checked) decode returning a constant-time option. -/
structure GroupCodecs (G1 G2 Gt : Type) where
  encG1 : G1 → List Byte
  decG1 : List Byte → CtOpt G1
  encG2 : G2 → List Byte
  decG2 : List Byte → CtOpt G2
  encGt : Gt → List Byte
  decGt : List Byte → CtOpt Gt

/-- Modelled from the spec: the collaborator contract that compressed
encodings have the fixed lengths 48, 96 and 288. -/
def EncLengths (C : GroupCodecs G1 G2 Gt) : Prop :=
  (∀ x, (C.encG1 x).length = 48) ∧ (∀ x, (C.encG2 x).length = 96) ∧
    (∀ x, (C.encGt x).length = 288)

/-- Modelled from the spec: the collaborator contract that decoding a
compressed encoding succeeds and returns the encoded element. -/
def DecEnc (C : GroupCodecs G1 G2 Gt) : Prop :=
  (∀ x, C.decG1 (C.encG1 x) = ⟨x, true⟩) ∧ (∀ x, C.decG2 (C.encG2 x) = ⟨x, true⟩) ∧
    (∀ x, C.decGt (C.encGt x) = ⟨x, true⟩)

variable [Inhabited G1] [Inhabited G2] [Inhabited Gt]

/-- Parameters::default, an array of 256 default G1 points. -/
instance : Inhabited (Parameters G1) := ⟨⟨fun _ => default⟩⟩

/-- Parameters::to_bytes: the compressed points in order i = 0..255, each
written at offset i * 48. -/
def Parameters.to_bytes (C : GroupCodecs G1 G2 Gt) (p : Parameters G1) : List Byte :=
  ((List.finRange 256).map (fun i => C.encG1 (p.pts i))).flatten

/-- Parameters::from_bytes: the loop decodes chunk i (offset i * 48) for
every i; slot i of the result receives the selected value of that decode
(the decoded point when valid, the default point otherwise, through
CtOption::map) and the validity flag is the running AND of all 256
per-chunk flags. -/
def Parameters.from_bytes (C : GroupCodecs G1 G2 Gt) (b : List Byte) :
    CtOpt (Parameters G1) :=
  { value := ⟨fun i =>
      let d := C.decG1 ((b.drop (i.val * 48)).take 48)
      condSel default d.value d.isSome⟩
    isSome := (List.finRange 256).foldl
      (fun acc i => acc && (C.decG1 ((b.drop (i.val * 48)).take 48)).isSome) true }

/-- PublicKey::to_bytes: g (96) then g1 (48) then g2 (96) then uprime (48)
then the parameter block (12288). -/
def PublicKey.to_bytes (C : GroupCodecs G1 G2 Gt) (pk : PublicKey G1 G2) : List Byte :=
  C.encG2 pk.g ++ C.encG1 pk.g1 ++ C.encG2 pk.g2 ++ C.encG1 pk.uprime ++
    Parameters.to_bytes C pk.u

/-- PublicKey::from_bytes: split the input at offsets 96, 144, 240, 288,
decode every field, and chain the carriers with and_then / map. -/
def PublicKey.from_bytes (C : GroupCodecs G1 G2 Gt) (b : List Byte) :
    CtOpt (PublicKey G1 G2) :=
  let g := C.decG2 (b.take 96)
  let g1 := C.decG1 ((b.drop 96).take 48)
  let g2 := C.decG2 ((b.drop 144).take 96)
  let uprime := C.decG1 ((b.drop 240).take 48)
  let u := Parameters.from_bytes C (b.drop 288)
  g.andThen fun g =>
    g1.andThen fun g1 =>
      g2.andThen fun g2 =>
        uprime.andThen fun uprime =>
          u.map fun u => ⟨g, g1, g2, uprime, u⟩

/-- SecretKey::to_bytes: the compressed g1prime (48 bytes). -/
def SecretKey.to_bytes (C : GroupCodecs G1 G2 Gt) (sk : SecretKey G1) : List Byte :=
  C.encG1 sk.g1prime

/-- SecretKey::from_bytes. -/
def SecretKey.from_bytes (C : GroupCodecs G1 G2 Gt) (b : List Byte) :
    CtOpt (SecretKey G1) :=
  (C.decG1 b).map fun g1prime => ⟨g1prime⟩

/-- UserSecretKey::to_bytes: d1 (48) then d2 (96). -/
def UserSecretKey.to_bytes (C : GroupCodecs G1 G2 Gt) (usk : UserSecretKey G1 G2) :
    List Byte :=
  C.encG1 usk.d1 ++ C.encG2 usk.d2

/-- UserSecretKey::from_bytes: split at offset 48, decode both fields,
chain with and_then / map. -/
def UserSecretKey.from_bytes (C : GroupCodecs G1 G2 Gt) (b : List Byte) :
    CtOpt (UserSecretKey G1 G2) :=
  let d1 := C.decG1 (b.take 48)
  let d2 := C.decG2 ((b.drop 48).take 96)
  d1.andThen fun d1 => d2.map fun d2 => ⟨d1, d2⟩

/-- Message::to_bytes: the compressed Gt element (288 bytes). -/
def Message.to_bytes (C : GroupCodecs G1 G2 Gt) (m : Message Gt) : List Byte :=
  C.encGt m.val

/-- Message::from_bytes. -/
def Message.from_bytes (C : GroupCodecs G1 G2 Gt) (b : List Byte) :
    CtOpt (Message Gt) :=
  (C.decGt b).map fun x => ⟨x⟩

/-- CipherText::to_bytes: c1 (288) then c2 (96) then c3 (48). -/
def CipherText.to_bytes (C : GroupCodecs G1 G2 Gt) (c : CipherText G1 G2 Gt) :
    List Byte :=
  C.encGt c.c1 ++ C.encG2 c.c2 ++ C.encG1 c.c3

/-- CipherText::from_bytes: split at offsets 288 and 384, decode all three
fields, chain with and_then / map. -/
def CipherText.from_bytes (C : GroupCodecs G1 G2 Gt) (b : List Byte) :
    CtOpt (CipherText G1 G2 Gt) :=
  let c1 := C.decGt (b.take 288)
  let c2 := C.decG2 ((b.drop 288).take 96)
  let c3 := C.decG1 ((b.drop 384).take 48)
  c1.andThen fun c1 => c2.andThen fun c2 => c3.map fun c3 => ⟨c1, c2, c3⟩

end Serialization

section Hashing

/-- Modelled from the spec: Identity::derive wraps the external SHA3-256
hash of the input bytes; the hash itself (tiny_keccak) is abstract here
and passed as a parameter. -/
def Identity.derive (sha3 : List Byte → Fin 32 → Byte) (b : List Byte) : Identity :=
  ⟨sha3 b⟩

/-- The UTF-8 bytes of a string, modelling str::as_bytes. -/
def utf8Bytes (s : String) : List Byte :=
  s.toUTF8.toList.map (fun b => b.toNat)

/-- Identity::derive_str: encode the string as UTF-8 and call derive. -/
def Identity.derive_str (sha3 : List Byte → Fin 32 → Byte) (s : String) : Identity :=
  Identity.derive sha3 (utf8Bytes s)

/-- Message::generate: one uniform Gt draw. -/
def Message.generate {G1 G2 Gt S : Type} (rng : Rng G1 G2 Gt S) :
    Message Gt × Rng G1 G2 Gt S :=
  let p1 := rand_gt rng
  (⟨p1.1⟩, p1.2)

end Hashing

section ConcreteInstance

/-- A concrete carrier used to evaluate the scheme on explicit inputs:
all four carrier types are the integers modulo 2. -/
abbrev Z2 := ZMod 2

instance : Inhabited Z2 := ⟨0⟩

/-- A concrete fixed-length encoder on the Z2 carrier: the value followed
by zero padding. -/
def encZ (n : Nat) (x : Z2) : List Byte := x.val :: List.replicate (n - 1) 0

/-- A concrete decoder on the Z2 carrier: reads the first byte. -/
def decZ (b : List Byte) : CtOpt Z2 := ⟨((b.headD 0 : Nat) : Z2), true⟩

/-- Concrete codecs on the Z2 carrier with the 48/96/288 lengths. -/
def codecZ : GroupCodecs Z2 Z2 Z2 :=
  ⟨encZ 48, decZ, encZ 96, decZ, encZ 288, decZ⟩

/-- A concrete public key on the Z2 carrier. -/
def pkZ : PublicKey Z2 Z2 := ⟨1, 1, 0, 1, ⟨fun _ => 1⟩⟩

/-- A concrete secret key on the Z2 carrier. -/
def skZ : SecretKey Z2 := ⟨1⟩

/-- A concrete user secret key on the Z2 carrier. -/
def uskZ : UserSecretKey Z2 Z2 := ⟨1, 0⟩

/-- A concrete message on the Z2 carrier. -/
def mZ : Message Z2 := ⟨1⟩

/-- A concrete ciphertext on the Z2 carrier. -/
def cZ : CipherText Z2 Z2 Z2 := ⟨1, 0, 1⟩

/-- The all-zero identity digest. -/
def idZero : Identity := ⟨fun _ => 0⟩

/-- A concrete injective stand-in for the abstract hash: byte 0 of the
digest is an injective encoding of the whole input. -/
def sha3W (b : List Byte) : Fin 32 → Byte :=
  fun i => if i.val = 0 then Encodable.encode b else 0

end ConcreteInstance

/-! ## Theorems -/

section EntangleTheorems

variable {G1 G2 : Type} [AddCommGroup G1]

/-- The conditional-select fold of entangle, over any index list, adds to
the accumulator exactly the sum of the points whose bit is set. -/
theorem foldl_condSel_eq (u : Fin 256 → G1) (b : Fin 256 → Bool) :
    ∀ (l : List (Fin 256)) (acc : G1),
      l.foldl (fun a i => condSel a (u i + a) (b i)) acc
        = acc + (l.map (fun i => if b i then u i else 0)).sum := by
  intro l
  induction l with
  | nil => intro acc; simp
  | cons i tl ih =>
    intro acc
    simp only [List.foldl_cons, List.map_cons, List.sum_cons, ih]
    by_cases hb : b i
    · simp only [condSel, hb, if_true]
      abel
    · simp only [condSel, hb, if_false, Bool.false_eq_true, zero_add]

/-- C3: entangle(pk, v) equals uprime plus the sum over all 256 positions
of the parameter points whose digest bit is set, the bit order being
MSB-first within each byte, byte 0 first (as fixed by bitAt). -/
theorem entangle_eq_uprime_add_sum (pk : PublicKey G1 G2) (v : Identity) :
    entangle pk v
      = pk.uprime + ∑ i : Fin 256, if bitAt v i then pk.u.pts i else 0 := by
  rw [entangle, foldl_condSel_eq, Fin.sum_univ_def]

/-- C7: on the all-zero digest no parameter point is added and entangle
returns uprime. -/
theorem entangle_zero_digest (pk : PublicKey G1 G2) (v : Identity)
    (h : ∀ j, v.digest j = 0) : entangle pk v = pk.uprime := by
  have hb : ∀ i, bitAt v i = false := by
    intro i
    unfold bitAt
    rw [h]
    exact Nat.zero_testBit _
  rw [entangle, foldl_condSel_eq]
  have hsum : ((List.finRange 256).map
      (fun i => if bitAt v i then pk.u.pts i else 0)).sum = 0 := by
    apply List.sum_eq_zero
    intro x hx
    obtain ⟨i, _, rfl⟩ := List.mem_map.mp hx
    rw [hb i]
    simp
  rw [hsum, add_zero]

end EntangleTheorems

/-- Witness for C7: the all-zero digest on a concrete public key. -/
theorem entangle_zero_digest_witness :
    (∀ j, idZero.digest j = 0) ∧ entangle pkZ idZero = pkZ.uprime :=
  ⟨fun _ => rfl, entangle_zero_digest pkZ idZero (fun _ => rfl)⟩

section ProtocolTheorems

variable {G1 G2 Gt S : Type}
variable [AddCommGroup G1] [AddCommGroup G2] [AddCommGroup Gt]
variable [CommRing S] [Module S G1] [Module S G2] [Module S Gt]

/-- C1: for every key pair produced by setup (any randomness), every
identity, every message and every randomness of extract_usk and encrypt,
decrypting the encryption with the extracted user secret key returns the
message exactly. -/
theorem decrypt_extract_encrypt (e : G1 →ₗ[S] G2 →ₗ[S] Gt)
    (rng0 rng1 rng2 : Rng G1 G2 Gt S) (v : Identity) (m : Message Gt) :
    decrypt e (extract_usk (setup rng0).1.1 (setup rng0).1.2 v rng1).1
      (encrypt e (setup rng0).1.1 v m rng2).1 = m := by
  obtain ⟨mv⟩ := m
  simp only [setup, extract_usk, encrypt, decrypt, rand_g2, rand_scalar, rand_g1,
    rand_parameters, Message.mk.injEq]
  simp only [map_add, map_smul, LinearMap.add_apply, LinearMap.smul_apply, smul_smul]
  module

/-- C10: setup, extract_usk and encrypt are deterministic functions of
their inputs and the stream of the injected RNG, consumed in a fixed
order: setup reads g at the cursor, then alpha, then g1, then uprime, then
the 256 parameter points, advancing the cursor by 260; extract_usk and
encrypt each read one scalar; decrypt reads no randomness and is a
function of the user secret key and the ciphertext alone. -/
theorem rng_fixed_order (e : G1 →ₗ[S] G2 →ₗ[S] Gt) (src : RandSource G1 G2 Gt S)
    (n : Nat) (pk : PublicKey G1 G2) (sk : SecretKey G1) (v : Identity)
    (m : Message Gt) (usk : UserSecretKey G1 G2) (c : CipherText G1 G2 Gt) :
    setup (⟨src, n⟩ : Rng G1 G2 Gt S)
      = ((⟨src.g2s n, src.g1s (n + 2), src.scalars (n + 1) • src.g2s n,
          src.g1s (n + 3), ⟨fun i => src.g1s (n + 4 + i.val)⟩⟩,
         ⟨src.scalars (n + 1) • src.g1s (n + 2)⟩), ⟨src, n + 260⟩) ∧
    extract_usk pk sk v (⟨src, n⟩ : Rng G1 G2 Gt S)
      = (⟨sk.g1prime + src.scalars n • entangle pk v, src.scalars n • pk.g⟩,
         ⟨src, n + 1⟩) ∧
    encrypt e pk v m (⟨src, n⟩ : Rng G1 G2 Gt S)
      = (⟨src.scalars n • e pk.g1 pk.g2 + m.val, src.scalars n • pk.g,
          src.scalars n • entangle pk v⟩, ⟨src, n + 1⟩) ∧
    decrypt e usk c = ⟨c.c1 + e c.c3 usk.d2 - e usk.d1 c.c2⟩ := by
  refine ⟨?_, rfl, rfl, rfl⟩
  simp only [setup, rand_g2, rand_scalar, rand_g1, rand_parameters]

/-- C6: all operations other than from_bytes are total: on the embedding
each is a function returning a value for every input and randomness
stream. -/
theorem ops_total :
    (∀ rng : Rng G1 G2 Gt S, ∃ y, setup rng = y) ∧
    (∀ (pk : PublicKey G1 G2) (sk : SecretKey G1) (v : Identity)
      (rng : Rng G1 G2 Gt S), ∃ y, extract_usk pk sk v rng = y) ∧
    (∀ (e : G1 →ₗ[S] G2 →ₗ[S] Gt) (pk : PublicKey G1 G2) (v : Identity)
      (m : Message Gt) (rng : Rng G1 G2 Gt S), ∃ y, encrypt e pk v m rng = y) ∧
    (∀ (e : G1 →ₗ[S] G2 →ₗ[S] Gt) (usk : UserSecretKey G1 G2)
      (c : CipherText G1 G2 Gt), ∃ y, decrypt e usk c = y) ∧
    (∀ (sha3 : List Byte → Fin 32 → Byte) (b : List Byte),
      ∃ y, Identity.derive sha3 b = y) ∧
    (∀ rng : Rng G1 G2 Gt S, ∃ y, Message.generate rng = y) ∧
    (∀ (C : GroupCodecs G1 G2 Gt) (pk : PublicKey G1 G2),
      ∃ y, PublicKey.to_bytes C pk = y) ∧
    (∀ (C : GroupCodecs G1 G2 Gt) (sk : SecretKey G1),
      ∃ y, SecretKey.to_bytes C sk = y) ∧
    (∀ (C : GroupCodecs G1 G2 Gt) (usk : UserSecretKey G1 G2),
      ∃ y, UserSecretKey.to_bytes C usk = y) ∧
    (∀ (C : GroupCodecs G1 G2 Gt) (m : Message Gt),
      ∃ y, Message.to_bytes C m = y) ∧
    (∀ (C : GroupCodecs G1 G2 Gt) (c : CipherText G1 G2 Gt),
      ∃ y, CipherText.to_bytes C c = y) :=
  ⟨fun _ => ⟨_, rfl⟩, fun _ _ _ _ => ⟨_, rfl⟩, fun _ _ _ _ _ => ⟨_, rfl⟩,
   fun _ _ _ => ⟨_, rfl⟩, fun _ _ => ⟨_, rfl⟩, fun _ => ⟨_, rfl⟩,
   fun _ _ => ⟨_, rfl⟩, fun _ _ => ⟨_, rfl⟩, fun _ _ => ⟨_, rfl⟩,
   fun _ _ => ⟨_, rfl⟩, fun _ _ => ⟨_, rfl⟩⟩

end ProtocolTheorems

section SerializationTheorems

variable {G1 G2 Gt : Type}

/-- A fold of AND over a list equals the seed AND the all-predicate. -/
theorem foldl_and_eq_all {A : Type} (f : A → Bool) (l : List A) (b : Bool) :
    l.foldl (fun acc i => acc && f i) b = (b && l.all f) := by
  induction l generalizing b with
  | nil => simp
  | cons i tl ih => simp [List.foldl_cons, ih, Bool.and_assoc]

/-- In a flat concatenation of equal-length chunks, the i-th k-byte slice
is the i-th chunk. -/
theorem flatten_chunk {k : Nat} :
    ∀ (L : List (List Byte)), (∀ x ∈ L, x.length = k) →
      ∀ (i : Nat) (hi : i < L.length),
        (L.flatten.drop (i * k)).take k = L[i] := by
  intro L
  induction L with
  | nil =>
    intro _ i hi
    simp at hi
  | cons hd tl ih =>
    intro hlen i hi
    have hhd : hd.length = k := hlen hd (List.mem_cons_self hd tl)
    cases i with
    | zero =>
      simp only [Nat.zero_mul, List.drop_zero, List.flatten_cons,
        List.getElem_cons_zero]
      exact List.take_left' hhd
    | succ j =>
      have h1 : ((hd :: tl).flatten).drop ((j + 1) * k) = (tl.flatten).drop (j * k) := by
        rw [List.flatten_cons, show (j + 1) * k = k + j * k by ring,
          ← List.drop_drop (j * k) k, List.drop_left' hhd]
      have hj : j < tl.length := by simpa using hi
      rw [h1, ih (fun x hx => hlen x (List.mem_cons_of_mem hd hx)) j hj,
        List.getElem_cons_succ]

/-- Length of the serialized parameter block: 256 chunks of 48 bytes. -/
theorem params_to_bytes_length (C : GroupCodecs G1 G2 Gt)
    (h1 : ∀ x, (C.encG1 x).length = 48) (p : Parameters G1) :
    (Parameters.to_bytes C p).length = 12288 := by
  rw [Parameters.to_bytes, List.length_flatten, List.map_map]
  have hmap : ((List.finRange 256).map (List.length ∘ fun i => C.encG1 (p.pts i)))
      = (List.finRange 256).map (fun _ => 48) := by
    apply List.map_congr_left
    intro i _
    exact h1 _
  rw [hmap, List.map_const', List.sum_replicate, List.length_finRange, smul_eq_mul]

/-- Length of the serialized public key: 96 + 48 + 96 + 48 + 12288. -/
theorem pk_to_bytes_length (C : GroupCodecs G1 G2 Gt) (hC : EncLengths C)
    (pk : PublicKey G1 G2) : (PublicKey.to_bytes C pk).length = 12576 := by
  obtain ⟨h1, h2, h3⟩ := hC
  rw [PublicKey.to_bytes]
  simp [List.length_append, h1, h2, params_to_bytes_length C h1]

/-- C2 (amended): the serialized public key is 12576 bytes, laid out as
g (96 bytes) followed by g1 (48), g2 (96), uprime (48) and the 12288-byte
parameter block. -/
theorem pk_to_bytes_layout (C : GroupCodecs G1 G2 Gt) (hC : EncLengths C)
    (pk : PublicKey G1 G2) :
    (PublicKey.to_bytes C pk).length = 12576 ∧
    (Parameters.to_bytes C pk.u).length = 12288 ∧
    PublicKey.to_bytes C pk
      = C.encG2 pk.g ++ C.encG1 pk.g1 ++ C.encG2 pk.g2 ++ C.encG1 pk.uprime ++
          Parameters.to_bytes C pk.u ∧
    (C.encG2 pk.g).length = 96 ∧ (C.encG1 pk.g1).length = 48 ∧
    (C.encG2 pk.g2).length = 96 ∧ (C.encG1 pk.uprime).length = 48 :=
  ⟨pk_to_bytes_length C hC pk, params_to_bytes_length C hC.1 pk.u, rfl,
   hC.2.1 _, hC.1 _, hC.2.1 _, hC.1 _⟩

end SerializationTheorems

set_option maxRecDepth 8000 in
/-- The concrete codecs respect the 48/96/288 encoding lengths. -/
theorem encLengthsZ : EncLengths codecZ := by
  refine ⟨?_, ?_, ?_⟩ <;> decide

set_option maxRecDepth 8000 in
/-- The concrete codecs satisfy the decode-encode round trip. -/
theorem decEncZ : DecEnc codecZ := by
  refine ⟨?_, ?_, ?_⟩ <;> decide

/-- C2 counterexample: on a concrete public key and a codec respecting the
48/96/288 component lengths, the serialized public key has 12576 bytes,
not 12480 as claimed. -/
theorem pk_to_bytes_length_ne : ¬ (PublicKey.to_bytes codecZ pkZ).length = 12480 := by
  have h := pk_to_bytes_length codecZ encLengthsZ pkZ
  omega

/-- Witness for C2 (amended): the concrete codec satisfies the length
contract and the concrete public key serializes to 12576 bytes. -/
theorem pk_to_bytes_layout_witness :
    EncLengths codecZ ∧ (PublicKey.to_bytes codecZ pkZ).length = 12576 :=
  ⟨encLengthsZ, (pk_to_bytes_layout codecZ encLengthsZ pkZ).1⟩

section RoundTripTheorems

variable {G1 G2 Gt : Type} [Inhabited G1] [Inhabited G2] [Inhabited Gt]

omit [Inhabited G2] [Inhabited Gt] in
/-- Decoding the serialized parameter block recovers it with a set flag. -/
theorem params_from_to (C : GroupCodecs G1 G2 Gt)
    (h1 : ∀ x, (C.encG1 x).length = 48)
    (hd1 : ∀ x, C.decG1 (C.encG1 x) = ⟨x, true⟩) (p : Parameters G1) :
    Parameters.from_bytes C (Parameters.to_bytes C p) = ⟨p, true⟩ := by
  have hchunk : ∀ i : Fin 256,
      ((Parameters.to_bytes C p).drop (i.val * 48)).take 48 = C.encG1 (p.pts i) := by
    intro i
    rw [Parameters.to_bytes]
    have hlen : ∀ x ∈ (List.finRange 256).map (fun j => C.encG1 (p.pts j)),
        x.length = 48 := by
      intro x hx
      obtain ⟨j, _, rfl⟩ := List.mem_map.mp hx
      exact h1 _
    have hi : i.val < ((List.finRange 256).map (fun j => C.encG1 (p.pts j))).length := by
      simp
    rw [flatten_chunk _ hlen i.val hi]
    have hi2 : i.val < (List.finRange 256).length := by simp
    have hfr : (List.finRange 256)[i.val] = i := by
      rw [List.getElem_finRange]
      exact Fin.ext rfl
    rw [List.getElem_map, hfr]
  obtain ⟨ppts⟩ := p
  rw [Parameters.from_bytes]
  simp only [CtOpt.mk.injEq, Parameters.mk.injEq]
  constructor
  · funext i
    rw [hchunk i, hd1 (ppts i)]
    rfl
  · rw [foldl_and_eq_all]
    simp only [Bool.true_and, List.all_eq_true]
    intro i _
    rw [hchunk i, hd1 (ppts i)]

/-- C4: for each of the five datatypes, from_bytes applied to to_bytes
succeeds (set flag) and returns the original value. -/
theorem from_bytes_to_bytes (C : GroupCodecs G1 G2 Gt)
    (hL : EncLengths C) (hD : DecEnc C)
    (pk : PublicKey G1 G2) (sk : SecretKey G1) (usk : UserSecretKey G1 G2)
    (m : Message Gt) (c : CipherText G1 G2 Gt) :
    PublicKey.from_bytes C (PublicKey.to_bytes C pk) = ⟨pk, true⟩ ∧
    SecretKey.from_bytes C (SecretKey.to_bytes C sk) = ⟨sk, true⟩ ∧
    UserSecretKey.from_bytes C (UserSecretKey.to_bytes C usk) = ⟨usk, true⟩ ∧
    Message.from_bytes C (Message.to_bytes C m) = ⟨m, true⟩ ∧
    CipherText.from_bytes C (CipherText.to_bytes C c) = ⟨c, true⟩ := by
  obtain ⟨hL1, hL2, hL3⟩ := hL
  obtain ⟨hD1, hD2, hD3⟩ := hD
  refine ⟨?_, ?_, ?_, ?_, ?_⟩
  · -- PublicKey
    have hb : PublicKey.to_bytes C pk
        = C.encG2 pk.g ++ (C.encG1 pk.g1 ++ (C.encG2 pk.g2 ++ (C.encG1 pk.uprime ++
            Parameters.to_bytes C pk.u))) := by
      rw [PublicKey.to_bytes]
      simp [List.append_assoc]
    have h0 : (PublicKey.to_bytes C pk).take 96 = C.encG2 pk.g := by
      rw [hb]
      exact List.take_left' (hL2 _)
    have hd96 : (PublicKey.to_bytes C pk).drop 96
        = C.encG1 pk.g1 ++ (C.encG2 pk.g2 ++ (C.encG1 pk.uprime ++
            Parameters.to_bytes C pk.u)) := by
      rw [hb]
      exact List.drop_left' (hL2 _)
    have hd144 : (PublicKey.to_bytes C pk).drop 144
        = C.encG2 pk.g2 ++ (C.encG1 pk.uprime ++ Parameters.to_bytes C pk.u) := by
      have hsplit : (PublicKey.to_bytes C pk).drop 144
          = ((PublicKey.to_bytes C pk).drop 96).drop 48 := by
        rw [List.drop_drop]
      rw [hsplit, hd96, List.drop_left' (hL1 _)]
    have hd240 : (PublicKey.to_bytes C pk).drop 240
        = C.encG1 pk.uprime ++ Parameters.to_bytes C pk.u := by
      have hsplit : (PublicKey.to_bytes C pk).drop 240
          = ((PublicKey.to_bytes C pk).drop 144).drop 96 := by
        rw [List.drop_drop]
      rw [hsplit, hd144, List.drop_left' (hL2 _)]
    have hd288 : (PublicKey.to_bytes C pk).drop 288 = Parameters.to_bytes C pk.u := by
      have hsplit : (PublicKey.to_bytes C pk).drop 288
          = ((PublicKey.to_bytes C pk).drop 240).drop 48 := by
        rw [List.drop_drop]
      rw [hsplit, hd240, List.drop_left' (hL1 _)]
    have h1 : ((PublicKey.to_bytes C pk).drop 96).take 48 = C.encG1 pk.g1 := by
      rw [hd96]
      exact List.take_left' (hL1 _)
    have h2 : ((PublicKey.to_bytes C pk).drop 144).take 96 = C.encG2 pk.g2 := by
      rw [hd144]
      exact List.take_left' (hL2 _)
    have h3 : ((PublicKey.to_bytes C pk).drop 240).take 48 = C.encG1 pk.uprime := by
      rw [hd240]
      exact List.take_left' (hL1 _)
    simp only [PublicKey.from_bytes, h0, h1, h2, h3, hd288, hD1, hD2,
      params_from_to C hL1 hD1]
    simp [CtOpt.andThen, CtOpt.map, condSel]
  · -- SecretKey
    obtain ⟨skv⟩ := sk
    simp only [SecretKey.from_bytes, SecretKey.to_bytes, hD1]
    simp [CtOpt.map, condSel]
  · -- UserSecretKey
    obtain ⟨ud1, ud2⟩ := usk
    have h0 : (UserSecretKey.to_bytes C ⟨ud1, ud2⟩).take 48 = C.encG1 ud1 :=
      List.take_left' (hL1 _)
    have h1 : ((UserSecretKey.to_bytes C ⟨ud1, ud2⟩).drop 48).take 96 = C.encG2 ud2 := by
      rw [UserSecretKey.to_bytes, List.drop_left' (hL1 _)]
      exact List.take_of_length_le (le_of_eq (hL2 _))
    simp only [UserSecretKey.from_bytes, h0, h1, hD1, hD2]
    simp [CtOpt.andThen, CtOpt.map, condSel]
  · -- Message
    obtain ⟨mval⟩ := m
    simp only [Message.from_bytes, Message.to_bytes, hD3]
    simp [CtOpt.map, condSel]
  · -- CipherText
    obtain ⟨cc1, cc2, cc3⟩ := c
    have hb : CipherText.to_bytes C ⟨cc1, cc2, cc3⟩
        = C.encGt cc1 ++ (C.encG2 cc2 ++ C.encG1 cc3) := by
      rw [CipherText.to_bytes, List.append_assoc]
    have h0 : (CipherText.to_bytes C ⟨cc1, cc2, cc3⟩).take 288 = C.encGt cc1 := by
      rw [hb]
      exact List.take_left' (hL3 _)
    have hd288 : (CipherText.to_bytes C ⟨cc1, cc2, cc3⟩).drop 288
        = C.encG2 cc2 ++ C.encG1 cc3 := by
      rw [hb]
      exact List.drop_left' (hL3 _)
    have h1 : ((CipherText.to_bytes C ⟨cc1, cc2, cc3⟩).drop 288).take 96
        = C.encG2 cc2 := by
      rw [hd288]
      exact List.take_left' (hL2 _)
    have hd384 : (CipherText.to_bytes C ⟨cc1, cc2, cc3⟩).drop 384 = C.encG1 cc3 := by
      have hsplit : (CipherText.to_bytes C ⟨cc1, cc2, cc3⟩).drop 384
          = ((CipherText.to_bytes C ⟨cc1, cc2, cc3⟩).drop 288).drop 96 := by
        rw [List.drop_drop]
      rw [hsplit, hd288, List.drop_left' (hL2 _)]
    have h2 : ((CipherText.to_bytes C ⟨cc1, cc2, cc3⟩).drop 384).take 48
        = C.encG1 cc3 := by
      rw [hd384]
      exact List.take_of_length_le (le_of_eq (hL1 _))
    simp only [CipherText.from_bytes, h0, h1, h2, hD1, hD2, hD3]
    simp [CtOpt.andThen, CtOpt.map, condSel]

/-- C5: each compound decode carries a success flag equal to the AND of
the per-field validity flags; a Parameters decode succeeds exactly when
all 256 chunk decodes are valid. -/
theorem from_bytes_flag_eq_and (C : GroupCodecs G1 G2 Gt) (b bu bc bp : List Byte) :
    (PublicKey.from_bytes C b).isSome
      = ((C.decG2 (b.take 96)).isSome && (C.decG1 ((b.drop 96).take 48)).isSome &&
         (C.decG2 ((b.drop 144).take 96)).isSome &&
         (C.decG1 ((b.drop 240).take 48)).isSome &&
         (Parameters.from_bytes C (b.drop 288)).isSome) ∧
    (UserSecretKey.from_bytes C bu).isSome
      = ((C.decG1 (bu.take 48)).isSome && (C.decG2 ((bu.drop 48).take 96)).isSome) ∧
    (CipherText.from_bytes C bc).isSome
      = ((C.decGt (bc.take 288)).isSome && (C.decG2 ((bc.drop 288).take 96)).isSome &&
         (C.decG1 ((bc.drop 384).take 48)).isSome) ∧
    ((Parameters.from_bytes C bp).isSome = true ↔
      ∀ i : Fin 256, (C.decG1 ((bp.drop (i.val * 48)).take 48)).isSome = true) := by
  refine ⟨?_, ?_, ?_, ?_⟩
  · simp only [PublicKey.from_bytes, CtOpt.andThen, CtOpt.map]
    simp [Bool.and_comm, Bool.and_assoc, Bool.and_left_comm]
  · simp only [UserSecretKey.from_bytes, CtOpt.andThen, CtOpt.map]
    simp [Bool.and_comm]
  · simp only [CipherText.from_bytes, CtOpt.andThen, CtOpt.map]
    simp [Bool.and_comm, Bool.and_assoc, Bool.and_left_comm]
  · simp only [Parameters.from_bytes]
    rw [foldl_and_eq_all]
    simp [List.all_eq_true]

end RoundTripTheorems

/-- Witness for C4: the concrete codec satisfies both contracts and the
round trips hold on concrete values of all five datatypes. -/
theorem from_bytes_to_bytes_witness :
    EncLengths codecZ ∧ DecEnc codecZ ∧
    (PublicKey.from_bytes codecZ (PublicKey.to_bytes codecZ pkZ) = ⟨pkZ, true⟩ ∧
     SecretKey.from_bytes codecZ (SecretKey.to_bytes codecZ skZ) = ⟨skZ, true⟩ ∧
     UserSecretKey.from_bytes codecZ (UserSecretKey.to_bytes codecZ uskZ) = ⟨uskZ, true⟩ ∧
     Message.from_bytes codecZ (Message.to_bytes codecZ mZ) = ⟨mZ, true⟩ ∧
     CipherText.from_bytes codecZ (CipherText.to_bytes codecZ cZ) = ⟨cZ, true⟩) :=
  ⟨encLengthsZ, decEncZ,
   from_bytes_to_bytes codecZ encLengthsZ decEncZ pkZ skZ uskZ mZ cZ⟩

/-- The concrete stand-in hash is injective. -/
theorem sha3W_injective : Function.Injective sha3W := by
  intro b1 b2 h
  have h0 := congrFun h (0 : Fin 32)
  simp only [sha3W] at h0
  exact Encodable.encode_injective (by simpa using h0)

/-- C8: derive is deterministic and, the hash being injective (the
collision-freeness idealization of SHA3-256), derive(b1) = derive(b2) iff
b1 = b2 bytewise; derive_str is derive of the UTF-8 encoding. -/
theorem derive_eq_iff (sha3 : List Byte → Fin 32 → Byte)
    (hinj : Function.Injective sha3) (b1 b2 : List Byte) (s : String) :
    (Identity.derive sha3 b1 = Identity.derive sha3 b2 ↔ b1 = b2) ∧
    Identity.derive_str sha3 s = Identity.derive sha3 (utf8Bytes s) := by
  constructor
  · constructor
    · intro h
      exact hinj (congrArg Identity.digest h)
    · intro h
      rw [h]
  · rfl

/-- Witness for C8: a concrete injective hash at concrete inputs. -/
theorem derive_eq_iff_witness :
    Function.Injective sha3W ∧
    ((Identity.derive sha3W [0] = Identity.derive sha3W [1, 2]) ↔ [0] = [1, 2]) ∧
    Identity.derive_str sha3W "id" = Identity.derive sha3W (utf8Bytes "id") :=
  ⟨sha3W_injective, (derive_eq_iff sha3W sha3W_injective [0] [1, 2] "id").1,
   (derive_eq_iff sha3W sha3W_injective [0] [1, 2] "id").2⟩

end Waters
